import Mathlib

/-!
Shallow embedding of `statsdaemon.go` (akundu/statsdaemon).

Modelling conventions, used throughout:
* Go `float64`/`float32` values are modelled as exact rationals (`Rat`);
  the arithmetic the claims speak about (percentile ranks, sampling
  correction, gauge saturation) is stated over the same formulas.
* Go maps are modelled as association lists (`List (String × _)`).
  Go guarantees unique keys; lookups take the first match.  Go's map
  iteration order is unspecified, so fixing it to list order is a
  legitimate determinization.
* Go `int64(f)` conversion truncates toward zero: `ratTrunc`.
* Code that would panic in Go (indexing an empty timer list, a
  percentile index out of range, `val[0]` of an empty gauge value) is
  totalized with explicit defaults (`List.getD`) or `Option`; the
  relevant claim (C10) about index bounds is settled separately.
-/

namespace Statsd

/-- Association-list lookup, first match wins (Go map read). -/
def aget {α : Type} (k : String) : List (String × α) → Option α
  | [] => none
  | (k', v) :: rest => if k' = k then some v else aget k rest

/-- Association-list update: replace the first binding of `k`, or append
a new binding (Go map write). -/
def aset {α : Type} (k : String) (v : α) : List (String × α) → List (String × α)
  | [] => [(k, v)]
  | (k', v') :: rest => if k' = k then (k, v) :: rest else (k', v') :: aset k v rest

/-- Keys of an association list are pairwise distinct (Go map invariant). -/
def keysNodup {α : Type} (l : List (String × α)) : Prop :=
  l.Pairwise fun p q => p.1 ≠ q.1

instance {α : Type} (l : List (String × α)) : Decidable (keysNodup l) := by
  unfold keysNodup; infer_instance

/-- Gauge payload carried by a parsed `g` event (struct `GaugeData`). -/
structure GaugeData where
  Relative : Bool
  Negative : Bool
  Value : Rat
deriving DecidableEq, Repr

/-- Sum type standing for the `interface{}` in `Packet.Value`: the parser
only ever stores an `int64`, a `float64`, a `GaugeData` or a `string`. -/
inductive PacketValue : Type
  | int (i : Int)
  | float (q : Rat)
  | gauge (g : GaugeData)
  | str (s : String)
deriving DecidableEq, Repr

/-- Parsed metric event (struct `Packet`). -/
structure Packet where
  Bucket : String
  Value : PacketValue
  Modifier : String
  Sampling : Rat
deriving DecidableEq, Repr

/-- Configured percentile specifier (struct `Percentile`). -/
structure Percentile where
  float : Rat
  str : String
deriving DecidableEq, Repr

/-- The aggregator's in-memory tables (the global maps `counters`,
`gauges`, `timers`, `countInactivity`, `sets`). -/
structure AggState where
  counters : List (String × Int)
  gauges : List (String × Rat)
  timers : List (String × List Rat)
  countInactivity : List (String × Int)
  sets : List (String × List String)
deriving DecidableEq, Repr

/-- Truncation toward zero, the semantics of Go's `int64(f)` conversion. -/
def ratTrunc (q : Rat) : Int :=
  if 0 ≤ q then ⌊q⌋ else -⌊-q⌋

/-- Value of `float64(math.MaxUint64)`: the untyped constant `2^64 - 1`
rounds to `2^64` when converted to `float64`. -/
def maxUint64Float : Rat := 18446744073709551616

/-- Gauge application (the `case "g"` body of `packetHandler`,
lines 110-134): absolute set, relative add clamped at `maxUint64Float`,
relative subtract clamped at `0`. -/
def applyGauge (old : Rat) (gd : GaugeData) : Rat :=
  if gd.Relative then
    if gd.Negative then
      if old < gd.Value then 0 else old - gd.Value
    else
      if maxUint64Float - old < gd.Value then maxUint64Float else old + gd.Value
  else gd.Value

/-- The `receiveCounter` bookkeeping at the top of `packetHandler`:
when configured (non-empty), reset a missing or negative meta counter to
`0`, then increment it. -/
def bumpReceive (receiveCounter : String) (st : AggState) : AggState :=
  if receiveCounter = "" then st
  else
    let v0 : Int :=
      match aget receiveCounter st.counters with
      | none => 0
      | some v => if v < 0 then 0 else v
    { st with counters := aset receiveCounter (v0 + 1) st.counters }

/-- `packetHandler`: apply one parsed event to the aggregator state.
A `Value` of the wrong variant for the modifier would be a failing type
assertion (panic) in Go; the model leaves the state unchanged there
(unreachable for parser-produced packets). -/
def packetHandler (receiveCounter : String) (st0 : AggState) (s : Packet) : AggState :=
  let st := bumpReceive receiveCounter st0
  if s.Modifier = "ms" then
    match s.Value with
    | PacketValue.float q =>
        { st with timers := aset s.Bucket ((aget s.Bucket st.timers).getD [] ++ [q]) st.timers }
    | _ => st
  else if s.Modifier = "g" then
    match s.Value with
    | PacketValue.gauge gd =>
        { st with gauges := aset s.Bucket (applyGauge ((aget s.Bucket st.gauges).getD 0) gd) st.gauges }
    | _ => st
  else if s.Modifier = "c" then
    match s.Value with
    | PacketValue.int i =>
        let v := (aget s.Bucket st.counters).getD 0 + ratTrunc ((i : Rat) * (1 / s.Sampling))
        { st with counters := aset s.Bucket v st.counters }
    | _ => st
  else if s.Modifier = "s" then
    match s.Value with
    | PacketValue.str v =>
        { st with sets := aset s.Bucket ((aget s.Bucket st.sets).getD [] ++ [v]) st.sets }
    | _ => st
  else st

/-- Emitted graphite value: `%d` for integers, `%0.<prec>f` for floats
(`%f` is precision 6). -/
inductive EmitValue : Type
  | int (n : Int)
  | flt (q : Rat) (prec : Nat)
deriving DecidableEq, Repr

/-- One graphite plaintext line `<bucket> <value> <now>`. -/
structure Line where
  bucket : String
  value : EmitValue
  time : Int
deriving DecidableEq, Repr

/-- First emitted line for a given bucket name, if any. -/
def findLine (b : String) : List Line → Option Line
  | [] => none
  | l :: rest => if l.bucket = b then some l else findLine b rest

/-- Left-pad a string with zeros to width `w`. -/
def zeroPad (s : String) (w : Nat) : String :=
  if s.length < w then String.mk (List.replicate (w - s.length) '0') ++ s else s

/-- Fixed-point decimal rendering of a rational, modelling Go's `%.<prec>f`
(rounding to nearest; the model rounds exact halves away from zero, which
agrees with Go except on ties the claims never exercise). -/
def formatFixed (prec : Nat) (q : Rat) : String :=
  let sgn := if q < 0 then "-" else ""
  let scaled : Int := ⌊|q| * (10 : Rat) ^ prec + 1 / 2⌋
  let ipart : Int := scaled / (10 : Int) ^ prec
  let fpart : Int := scaled % (10 : Int) ^ prec
  if prec = 0 then sgn ++ toString ipart
  else sgn ++ toString ipart ++ "." ++ zeroPad (toString fpart.toNat) prec

/-- Render an emitted value the way `fmt.Fprintf` does (`%d` or `%0.<prec>f`). -/
def renderValue : EmitValue → String
  | EmitValue.int n => toString n
  | EmitValue.flt q prec => formatFixed prec q

/-- Render a whole graphite line. -/
def renderLine (l : Line) : String :=
  l.bucket ++ " " ++ renderValue l.value ++ " " ++ toString l.time ++ "\n"

/-- Result of one emitter: the lines appended to the buffer, the `num`
counter it returns, and the updated state. -/
structure EmitOut where
  lines : List Line
  num : Int
  st : AggState
deriving Repr

/-- `processCounters` (lines 209-229): emit every live counter and reset
its inactivity ticker to 0; then emit a zero for every inactive bucket
with ticker > 0, increment all tickers, and drop tickers that exceeded
`persistCountKeys`.  The two per-entry passes of the second Go loop are
independent per entry, so they are modelled as two traversals. -/
def processCounters (st : AggState) (persistCountKeys now : Int) : EmitOut :=
  let lines1 := st.counters.map fun p => Line.mk p.1 (EmitValue.int p.2) now
  let inact1 := st.counters.foldl (fun m p => aset p.1 0 m) st.countInactivity
  let lines2 := inact1.filterMap fun p =>
    if 0 < p.2 then some (Line.mk p.1 (EmitValue.int 0) now) else none
  let inact2 := inact1.filterMap fun p =>
    if persistCountKeys < p.2 + 1 then none else some (p.1, p.2 + 1)
  { lines := lines1 ++ lines2,
    num := (lines1.length : Int) + (lines2.length : Int),
    st := { st with counters := [], countInactivity := inact2 } }

/-- `processGauges` (lines 244-253): emit each gauge with `%f` (six
decimal places) and delete it. -/
def processGauges (st : AggState) (now : Int) : EmitOut :=
  { lines := st.gauges.map fun p => Line.mk p.1 (EmitValue.flt p.2 6) now,
    num := (st.gauges.length : Int),
    st := { st with gauges := [] } }

/-- `processSets` (lines 255-268): emit the distinct-element count of
each set bucket and delete it. -/
def processSets (st : AggState) (now : Int) : EmitOut :=
  { lines := st.sets.map fun p => Line.mk p.1 (EmitValue.int (p.2.dedup.length : Int)) now,
    num := (st.sets.length : Int),
    st := { st with sets := [] } }

/-- `sort.Sort(t)` on a `Float64Slice` (lines 52-56, 275): ascending
sort.  Go's sort is unstable, but over a linear order every sorted
permutation of a list is the same list, so insertion sort is a faithful
model. -/
def sortRats (t : List Rat) : List Rat :=
  List.insertionSort (· ≤ ·) t

/-- Percentile rank-to-index computation of `processTimers`
(lines 288-301): `abs = pct` for non-negative specifiers, else
`100 + pct`; index `floor(abs/100 * count + 0.5)`, decremented by one
for non-negative specifiers only. -/
def pctIndex (p : Rat) (count : Nat) : Int :=
  let pabs := if 0 ≤ p then p else 100 + p
  let i : Int := ⌊pabs / 100 * (count : Rat) + 1 / 2⌋
  if 0 ≤ p then i - 1 else i

/-- Per-bucket body of `processTimers` (lines 272-323): sort, compute
min/max/median/mean, then one line per configured percentile followed by
the five summary lines.  Go panics on an empty bucket (`t[0]`) and on an
out-of-range percentile index; the model totalizes both with `getD`
defaults (see claim C10 for the bounds question). -/
def processTimerBucket (u : String) (t0 : List Rat) (now : Int) (pctls : List Percentile) : List Line :=
  let t := sortRats t0
  let tmin := t.getD 0 0
  let tmax := t.getD (t.length - 1) 0
  let tmed := t.getD (t.length / 2) 0
  let count := t.length
  let mean := t.sum / (count : Rat)
  let plines := pctls.map fun pct =>
    let v := if 1 < count then t.getD (pctIndex pct.float count).toNat 0 else tmax
    if 0 ≤ pct.float then Line.mk (u ++ ".upper_" ++ pct.str) (EmitValue.flt v 2) now
    else Line.mk (u ++ ".lower_" ++ pct.str.drop 1) (EmitValue.flt v 2) now
  plines ++
    [Line.mk (u ++ ".mean") (EmitValue.flt mean 2) now,
     Line.mk (u ++ ".median") (EmitValue.flt tmed 2) now,
     Line.mk (u ++ ".upper") (EmitValue.flt tmax 2) now,
     Line.mk (u ++ ".lower") (EmitValue.flt tmin 2) now,
     Line.mk (u ++ ".count") (EmitValue.int (count : Int)) now]

/-- `processTimers` (lines 270-326): emit every timer bucket and delete
it; `num` counts buckets, not lines, as in the source. -/
def processTimers (st : AggState) (now : Int) (pctls : List Percentile) : EmitOut :=
  { lines := st.timers.flatMap fun p => processTimerBucket p.1 p.2 now pctls,
    num := (st.timers.length : Int),
    st := { st with timers := [] } }

/-- Running the four emitters in the order of `submit` (counters,
gauges, timers, sets), threading the state. -/
def runEmitters (st : AggState) (now persistCountKeys : Int) (pctls : List Percentile) :
    List Line × Int × AggState :=
  let r1 := processCounters st persistCountKeys now
  let r2 := processGauges r1.st now
  let r3 := processTimers r2.st now pctls
  let r4 := processSets r3.st now
  (r1.lines ++ r2.lines ++ r3.lines ++ r4.lines, r1.num + r2.num + r3.num + r4.num, r4.st)

/-- Result of `submit`: final aggregator state, the lines actually
written to the socket, and the returned error (if any). -/
structure SubmitRes where
  st : AggState
  written : List Line
  err : Option String
deriving DecidableEq, Repr

/-- `submit` (lines 150-207).  The network effects are abstracted by the
three booleans `dialOk`, `deadlineOk`, `writeOk` (outcomes of `net.Dial`,
`SetDeadline` and `Write`).  With the sentinel address `-` it returns at
once; on dial failure it runs the emitters (into a discarded buffer) only
in debug mode; with zero emitted metrics nothing is written. -/
def submit (graphiteAddress : String) (debug dialOk deadlineOk writeOk : Bool)
    (st : AggState) (now persistCountKeys : Int) (pctls : List Percentile) : SubmitRes :=
  if graphiteAddress = "-" then { st := st, written := [], err := none }
  else if dialOk = false then
    if debug then
      let r := runEmitters st now persistCountKeys pctls
      { st := r.2.2, written := [], err := some ("dialing " ++ graphiteAddress ++ " failed") }
    else { st := st, written := [], err := some ("dialing " ++ graphiteAddress ++ " failed") }
  else if deadlineOk = false then
    { st := st, written := [], err := some "could not set deadline" }
  else
    let r := runEmitters st now persistCountKeys pctls
    if r.2.1 = 0 then { st := r.2.2, written := [], err := none }
    else if writeOk = false then
      { st := r.2.2, written := [], err := some "failed to write stats" }
    else { st := r.2.2, written := r.1, err := none }

/-! ### Wire parser (`parseMessage`, lines 332-452)

The parser is embedded over `List Char` (the byte slice).  `strconv.ParseInt`
and `strconv.ParseFloat` are modelled on their plain decimal subset
(optional sign, digits, optional fraction); exponent, hex and inf/nan
forms are out of scope of the claims. -/

/-- Flag defaults: `-prefix`. -/
def pfxStats : String := "stats."

/-- Flag defaults: `-prefixTimers`. -/
def pfxTimers : String := "timers."

/-- Flag defaults: `-prefixGauges`. -/
def pfxGauges : String := "gauges."

/-- `bytes.IndexByte`: position of the first occurrence of `c`, if any. -/
def idxOf (c : Char) : List Char → Option Nat
  | [] => none
  | x :: xs => if x = c then some 0 else (idxOf c xs).map (· + 1)

/-- `bytes.Split(data, "\n")`: split on every newline, keeping empty
pieces (`Split` of an empty slice is one empty piece). -/
def splitOnNl : List Char → List (List Char)
  | [] => [[]]
  | c :: rest =>
    if c = '\n' then [] :: splitOnNl rest
    else
      match splitOnNl rest with
      | [] => [[c]]
      | h :: t => (c :: h) :: t

/-- Value of a digit string read left to right; `none` when a non-digit
appears.  An empty list yields `0` (callers guard emptiness). -/
def digitsVal (l : List Char) : Option Nat :=
  l.foldl
    (fun acc c =>
      match acc with
      | none => none
      | some n => if '0' ≤ c ∧ c ≤ '9' then some (n * 10 + (c.toNat - 48)) else none)
    (some 0)

/-- Nonempty all-digit run, else `none`. -/
def parseDigits (l : List Char) : Option Nat :=
  if l = [] then none else digitsVal l

/-- Decimal subset of `strconv.ParseInt(s, 10, 64)`. -/
def parseInt (l : List Char) : Option Int :=
  match l with
  | '+' :: rest => (parseDigits rest).map fun n => (n : Int)
  | '-' :: rest => (parseDigits rest).map fun n => -(n : Int)
  | _ => (parseDigits l).map fun n => (n : Int)

/-- Unsigned decimal subset of `strconv.ParseFloat`: digits with an
optional single point; at least one digit overall. -/
def parseUFloat (l : List Char) : Option Rat :=
  let ip := l.takeWhile (fun c => c ≠ '.')
  match l.dropWhile (fun c => c ≠ '.') with
  | [] => (parseDigits ip).map fun n => (n : Rat)
  | _ :: frac =>
    if ip = [] ∧ frac = [] then none
    else
      match digitsVal ip, digitsVal frac with
      | some a, some b => some ((a : Rat) + (b : Rat) / (10 : Rat) ^ frac.length)
      | _, _ => none

/-- Signed decimal subset of `strconv.ParseFloat`. -/
def parseFloat (l : List Char) : Option Rat :=
  match l with
  | '+' :: rest => parseUFloat rest
  | '-' :: rest => (parseUFloat rest).map fun q => -q
  | _ => parseUFloat l

/-- Value parsing and final packet assembly of one line (lines 388-449):
dispatch on the first character of the type string, parse the optional
`|@rate` suffix (a failed rate parse silently keeps 1), and build the
packet with the accumulated prefix.  In the gauge branch Go reads
`val[0]` and would panic on an empty value; the model rejects instead
(unreachable input shape is not claimed). -/
def parseTail (name val mtype : List Char) (pfxToAdd : String) (rest : List Char) : Option Packet :=
  let parsed : Option (PacketValue × String) :=
    let c0 := mtype.headD ' '
    if c0 = 'c' then (parseInt val).map fun i => (PacketValue.int i, pfxToAdd)
    else if c0 = 'g' then
      match val with
      | [] => none
      | v0 :: vrest =>
        let relative := v0 = '+' ∨ v0 = '-'
        let negative := v0 = '-'
        let sToParse := if v0 = '+' ∨ v0 = '-' then vrest else val
        (parseFloat sToParse).map fun q =>
          (PacketValue.gauge ⟨relative, negative, q⟩, pfxStats ++ pfxGauges)
    else if c0 = 's' then some (PacketValue.str (String.mk val), pfxToAdd)
    else (parseFloat val).map fun q => (PacketValue.float q, pfxToAdd)
  match parsed with
  | none => none
  | some (v, pfxFinal) =>
    let rate : Rat :=
      if rest.take 2 = ['|', '@'] then
        match parseFloat (rest.drop 2) with
        | some r => r
        | none => 1
      else 1
    some { Bucket := pfxFinal ++ String.mk name,
           Value := v,
           Modifier := String.mk mtype,
           Sampling := rate }

/-- One line of `parseMessage` (lines 344-449): locate `:` (not last),
locate `|` (not last), read the type indicator (`m` must be followed by
`s`), then hand off to `parseTail`. -/
def parseLine (input : List Char) : Option Packet :=
  match idxOf ':' input with
  | none => none
  | some i =>
    if i = input.length - 1 then none
    else
      let name := input.take i
      let input1 := input.drop (i + 1)
      match idxOf '|' input1 with
      | none => none
      | some j =>
        if j = input1.length - 1 then none
        else
          let val := input1.take j
          let tc := input1.getD (j + 1) ' '
          if tc = 'm' then
            if input1.length ≤ j + 2 ∨ input1.getD (j + 2) ' ' ≠ 's' then none
            else parseTail name val ['m', 's'] (pfxStats ++ pfxTimers) (input1.drop (j + 3))
          else parseTail name val [tc] pfxStats (input1.drop (j + 2))

/-- `parseMessage` (lines 332-452): split the payload on newlines, skip
empty lines, parse each line independently, collect the packets in
order. -/
def parseMessage (data : List Char) : List Packet :=
  (splitOnNl data).filterMap fun line => if line = [] then none else parseLine line

/-! ### Claim-side definitions and flush iteration -/

/-- Maximum of a list of rationals (`max(S)` of the spec); `0` on the
empty list, which no claim exercises. -/
def listMax : List Rat → Rat
  | [] => 0
  | x :: xs => xs.foldl max x

/-- Minimum of a list of rationals (`min(S)` of the spec). -/
def listMin : List Rat → Rat
  | [] => 0
  | x :: xs => xs.foldl min x

/-- State of the aggregator after `n` consecutive counter flushes with
no intervening events (iterating `processCounters`). -/
def flushCountersState (persistCountKeys now : Int) (st : AggState) : Nat → AggState
  | 0 => st
  | n + 1 => (processCounters (flushCountersState persistCountKeys now st n) persistCountKeys now).st

/-- Lines emitted by the `(n+1)`-st consecutive counter flush. -/
def flushCountersLines (persistCountKeys now : Int) (st : AggState) (n : Nat) : List Line :=
  (processCounters (flushCountersState persistCountKeys now st n) persistCountKeys now).lines

/-- Counter packets for one bucket from a list of (delta, sampling)
pairs, as the parser would produce them. -/
def mkCounterPackets (b : String) (ds : List (Int × Rat)) : List Packet :=
  ds.map fun p => { Bucket := b, Value := PacketValue.int p.1, Modifier := "c", Sampling := p.2 }

/-- Relative-negative gauge packets for one bucket from a list of
magnitudes (`bucket:-d|g` events). -/
def mkGaugeNegPackets (b : String) (ds : List Rat) : List Packet :=
  ds.map fun d =>
    { Bucket := b, Value := PacketValue.gauge ⟨true, true, d⟩, Modifier := "g", Sampling := 1 }

/-- Fixture: the empty aggregator state. -/
def emptyAgg : AggState :=
  { counters := [], gauges := [], timers := [], countInactivity := [], sets := [] }

/-- Fixture: a state holding exactly one gauge bucket. -/
def stGauge (b : String) (v : Rat) : AggState :=
  { counters := [], gauges := [(b, v)], timers := [], countInactivity := [], sets := [] }

/-- Fixture: a state holding exactly one counter bucket. -/
def stCounter (b : String) (v : Int) : AggState :=
  { counters := [(b, v)], gauges := [], timers := [], countInactivity := [], sets := [] }

/-! ### Association-list lemmas -/

theorem aget_aset_self {α : Type} (k : String) (v : α) (l : List (String × α)) :
    aget k (aset k v l) = some v := by
  induction l with
  | nil => simp [aget, aset]
  | cons p rest ih =>
    obtain ⟨k', v'⟩ := p
    by_cases h : k' = k
    · simp [aset, h, aget]
    · simp [aset, h, aget, ih]

theorem aget_aset_ne {α : Type} {q k : String} (h : q ≠ k) (v : α) (l : List (String × α)) :
    aget q (aset k v l) = aget q l := by
  induction l with
  | nil =>
    simp only [aset, aget]
    rw [if_neg (fun hkq => h hkq.symm)]
  | cons p rest ih =>
    obtain ⟨k', v'⟩ := p
    by_cases hk : k' = k
    · subst hk
      simp only [aset, if_pos rfl, aget]
      rw [if_neg (fun h2 => h h2.symm), if_neg (fun h2 => h h2.symm)]
    · simp only [aset, if_neg hk, aget]
      by_cases hq : k' = q
      · rw [if_pos hq, if_pos hq]
      · rw [if_neg hq, if_neg hq]
        exact ih

theorem mem_aset_cases {α : Type} {q : String × α} {k : String} {v : α}
    {l : List (String × α)} (h : q ∈ aset k v l) : q.1 = k ∨ q ∈ l := by
  induction l with
  | nil =>
    simp only [aset, List.mem_singleton] at h
    subst h
    exact Or.inl rfl
  | cons p rest ih =>
    obtain ⟨k', v'⟩ := p
    by_cases hk : k' = k
    · simp only [aset, if_pos hk, List.mem_cons] at h
      rcases h with h | h
      · subst h
        exact Or.inl rfl
      · exact Or.inr (List.mem_cons_of_mem _ h)
    · simp only [aset, if_neg hk, List.mem_cons] at h
      rcases h with h | h
      · exact Or.inr (by simp [h])
      · rcases ih h with h1 | h1
        · exact Or.inl h1
        · exact Or.inr (List.mem_cons_of_mem _ h1)

theorem keysNodup_aset {α : Type} (k : String) (v : α) {l : List (String × α)}
    (h : keysNodup l) : keysNodup (aset k v l) := by
  induction l with
  | nil => simp [keysNodup, aset]
  | cons p rest ih =>
    obtain ⟨k', v'⟩ := p
    rw [keysNodup, List.pairwise_cons] at h
    by_cases hk : k' = k
    · subst hk
      rw [aset, if_pos rfl, keysNodup, List.pairwise_cons]
      exact ⟨h.1, h.2⟩
    · rw [aset, if_neg hk, keysNodup, List.pairwise_cons]
      refine ⟨fun q hq => ?_, ih h.2⟩
      rcases mem_aset_cases hq with h1 | h1
      · rw [h1]
        exact hk
      · exact h.1 q h1

theorem aget_eq_none_iff {α : Type} {k : String} {l : List (String × α)} :
    aget k l = none ↔ ∀ p ∈ l, p.1 ≠ k := by
  induction l with
  | nil => simp [aget]
  | cons p rest ih =>
    obtain ⟨k', v'⟩ := p
    by_cases h : k' = k
    · subst h
      simp [aget]
    · simp [aget, h, ih]

theorem aget_foldl_aset_zero (b : String) (cs m0 : List (String × Int)) :
    aget b (cs.foldl (fun m p => aset p.1 (0 : Int) m) m0)
      = if b ∈ cs.map Prod.fst then some 0 else aget b m0 := by
  induction cs generalizing m0 with
  | nil => simp
  | cons p rest ih =>
    rw [List.foldl_cons, ih]
    by_cases hb : b ∈ rest.map Prod.fst
    · rw [if_pos hb, if_pos (by rw [List.map_cons]; exact List.mem_cons_of_mem _ hb)]
    · rw [if_neg hb]
      by_cases hp : b = p.1
      · have hmem : b ∈ (p :: rest).map Prod.fst := by
          rw [List.map_cons, hp]
          exact List.mem_cons_self _ _
        rw [if_pos hmem, hp, aget_aset_self]
      · have hmem : b ∉ (p :: rest).map Prod.fst := by
          rw [List.map_cons]
          intro hm
          rcases List.mem_cons.mp hm with h1 | h1
          · exact hp h1
          · exact hb h1
        rw [if_neg hmem, aget_aset_ne hp]

theorem keysNodup_foldl_aset_zero (cs : List (String × Int)) {m0 : List (String × Int)}
    (h : keysNodup m0) :
    keysNodup (cs.foldl (fun m p => aset p.1 (0 : Int) m) m0) := by
  induction cs generalizing m0 with
  | nil => exact h
  | cons p rest ih => exact ih (keysNodup_aset p.1 0 h)

/-! ### `findLine` lemmas -/

theorem findLine_append_some {b : String} {l1 l2 : List Line} {ln : Line}
    (h : findLine b l1 = some ln) : findLine b (l1 ++ l2) = some ln := by
  induction l1 with
  | nil => simp [findLine] at h
  | cons x rest ih =>
    by_cases hx : x.bucket = b
    · simp only [findLine, if_pos hx] at h
      simp only [List.cons_append, findLine, if_pos hx]
      exact h
    · simp only [findLine, if_neg hx] at h
      simp only [List.cons_append, findLine, if_neg hx]
      exact ih h

theorem findLine_append_none {b : String} {l1 : List Line} (l2 : List Line)
    (h : findLine b l1 = none) : findLine b (l1 ++ l2) = findLine b l2 := by
  induction l1 with
  | nil => simp
  | cons x rest ih =>
    by_cases hx : x.bucket = b
    · simp only [findLine, if_pos hx] at h
      exact Option.noConfusion h
    · simp only [findLine, if_neg hx] at h
      simp only [List.cons_append, findLine, if_neg hx]
      exact ih h

theorem findLine_map_assoc {α : Type} (g : α → EmitValue) (now : Int) (b : String)
    (l : List (String × α)) :
    findLine b (l.map fun p => Line.mk p.1 (g p.2) now)
      = (aget b l).map fun v => Line.mk b (g v) now := by
  induction l with
  | nil => simp [findLine, aget]
  | cons p rest ih =>
    obtain ⟨k, v⟩ := p
    by_cases h : k = b
    · subst h
      simp [findLine, aget]
    · simp [findLine, aget, h, ih]

theorem findLine_fm_zero_of_aget_none (now : Int) {b : String} {l : List (String × Int)}
    (h : aget b l = none) :
    findLine b (l.filterMap fun p =>
      if 0 < p.2 then some (Line.mk p.1 (EmitValue.int 0) now) else none) = none := by
  induction l with
  | nil => simp [findLine]
  | cons p rest ih =>
    obtain ⟨k, v⟩ := p
    by_cases hk : k = b
    · rw [aget, if_pos hk] at h
      exact Option.noConfusion h
    · rw [aget, if_neg hk] at h
      by_cases hv : (0 : Int) < v
      · simp only [List.filterMap_cons, if_pos hv, findLine, if_neg hk]
        exact ih h
      · simp only [List.filterMap_cons, if_neg hv]
        exact ih h

theorem findLine_fm_zero_of_aget_some (now : Int) {b : String} {l : List (String × Int)}
    {v : Int} (hnd : keysNodup l) (h : aget b l = some v) :
    findLine b (l.filterMap fun p =>
      if 0 < p.2 then some (Line.mk p.1 (EmitValue.int 0) now) else none)
      = if 0 < v then some (Line.mk b (EmitValue.int 0) now) else none := by
  induction l with
  | nil => simp [aget] at h
  | cons p rest ih =>
    obtain ⟨k, w⟩ := p
    rw [keysNodup, List.pairwise_cons] at hnd
    by_cases hk : k = b
    · subst hk
      rw [aget, if_pos rfl] at h
      have hw : w = v := Option.some.inj h
      subst hw
      have hnone : aget k rest = none :=
        aget_eq_none_iff.mpr fun q hq => fun he => (hnd.1 q hq) he.symm
      by_cases hv : (0 : Int) < w
      · simp only [List.filterMap_cons, if_pos hv]
        simp [findLine]
      · simp only [List.filterMap_cons, if_neg hv]
        exact findLine_fm_zero_of_aget_none now hnone
    · rw [aget, if_neg hk] at h
      by_cases hw : (0 : Int) < w
      · simp only [List.filterMap_cons, if_pos hw, findLine, if_neg hk]
        exact ih hnd.2 h
      · simp only [List.filterMap_cons, if_neg hw]
        exact ih hnd.2 h

theorem aget_fm_incr_of_none (K : Int) {b : String} {l : List (String × Int)}
    (h : aget b l = none) :
    aget b (l.filterMap fun p =>
      if K < p.2 + 1 then none else some (p.1, p.2 + 1)) = none := by
  induction l with
  | nil => simp [aget]
  | cons p rest ih =>
    obtain ⟨k, v⟩ := p
    by_cases hk : k = b
    · rw [aget, if_pos hk] at h
      exact Option.noConfusion h
    · rw [aget, if_neg hk] at h
      by_cases hv : K < v + 1
      · simp only [List.filterMap_cons, if_pos hv]
        exact ih h
      · simp only [List.filterMap_cons, if_neg hv, aget, if_neg hk]
        exact ih h

theorem aget_fm_incr_of_some (K : Int) {b : String} {l : List (String × Int)} {v : Int}
    (hnd : keysNodup l) (h : aget b l = some v) :
    aget b (l.filterMap fun p =>
      if K < p.2 + 1 then none else some (p.1, p.2 + 1))
      = if K < v + 1 then none else some (v + 1) := by
  induction l with
  | nil => simp [aget] at h
  | cons p rest ih =>
    obtain ⟨k, w⟩ := p
    rw [keysNodup, List.pairwise_cons] at hnd
    by_cases hk : k = b
    · subst hk
      rw [aget, if_pos rfl] at h
      have hw : w = v := Option.some.inj h
      subst hw
      have hnone : aget k rest = none :=
        aget_eq_none_iff.mpr fun q hq => fun he => (hnd.1 q hq) he.symm
      by_cases hv : K < w + 1
      · simp only [List.filterMap_cons, if_pos hv]
        exact aget_fm_incr_of_none K hnone
      · simp only [List.filterMap_cons, if_neg hv]
        simp [aget]
    · rw [aget, if_neg hk] at h
      by_cases hw : K < w + 1
      · simp only [List.filterMap_cons, if_pos hw]
        exact ih hnd.2 h
      · simp only [List.filterMap_cons, if_neg hw, aget, if_neg hk]
        exact ih hnd.2 h

theorem keysNodup_fm_incr (K : Int) {l : List (String × Int)} (h : keysNodup l) :
    keysNodup (l.filterMap fun p =>
      if K < p.2 + 1 then none else some (p.1, p.2 + 1)) := by
  refine List.Pairwise.filterMap _ (fun a b hab => ?_) h
  intro x hx y hy
  have hxa : x.1 = a.1 := by
    by_cases ha : K < a.2 + 1
    · simp [ha] at hx
    · simp [ha] at hx
      rw [← hx]
  have hyb : y.1 = b.1 := by
    by_cases hb : K < b.2 + 1
    · simp [hb] at hy
    · simp [hb] at hy
      rw [← hy]
  rw [hxa, hyb]
  exact hab

/-! ### Maximum / minimum of rational lists -/

theorem init_le_foldl_max (xs : List Rat) (a : Rat) : a ≤ xs.foldl max a := by
  induction xs generalizing a with
  | nil => simp
  | cons b xs ih => exact le_trans (le_max_left a b) (by simpa using ih (max a b))

theorem le_foldl_max {xs : List Rat} {a x : Rat} (h : x = a ∨ x ∈ xs) :
    x ≤ xs.foldl max a := by
  induction xs generalizing a with
  | nil => simp [h.resolve_right (by simp)]
  | cons b xs ih =>
    rcases h with h | h
    · subst h
      exact le_trans (le_max_left x b) (init_le_foldl_max xs (max x b))
    · rcases List.mem_cons.mp h with h | h
      · subst h
        exact le_trans (le_max_right a x) (init_le_foldl_max xs (max a x))
      · exact ih (Or.inr h)

theorem foldl_max_mem (xs : List Rat) (a : Rat) : xs.foldl max a ∈ a :: xs := by
  induction xs generalizing a with
  | nil => simp
  | cons b xs ih =>
    have := ih (max a b)
    rcases List.mem_cons.mp this with h | h
    · rcases max_choice a b with hm | hm <;> rw [List.foldl_cons, h, hm] <;> simp
    · simp [List.foldl_cons, List.mem_cons.mpr (Or.inr h)]

theorem le_listMax {l : List Rat} {x : Rat} (h : x ∈ l) : x ≤ listMax l := by
  cases l with
  | nil => simp at h
  | cons a xs =>
    rcases List.mem_cons.mp h with h | h
    · exact le_foldl_max (Or.inl h)
    · exact le_foldl_max (Or.inr h)

theorem listMax_mem {l : List Rat} (h : l ≠ []) : listMax l ∈ l := by
  cases l with
  | nil => exact absurd rfl h
  | cons a xs => exact foldl_max_mem xs a

theorem foldl_min_le_init (xs : List Rat) (a : Rat) : xs.foldl min a ≤ a := by
  induction xs generalizing a with
  | nil => simp
  | cons b xs ih => exact le_trans (by simpa using ih (min a b)) (min_le_left a b)

theorem foldl_min_le {xs : List Rat} {a x : Rat} (h : x = a ∨ x ∈ xs) :
    xs.foldl min a ≤ x := by
  induction xs generalizing a with
  | nil => simp [h.resolve_right (by simp)]
  | cons b xs ih =>
    rcases h with h | h
    · subst h
      exact le_trans (foldl_min_le_init xs (min x b)) (min_le_left x b)
    · rcases List.mem_cons.mp h with h | h
      · subst h
        exact le_trans (foldl_min_le_init xs (min a x)) (min_le_right a x)
      · exact ih (Or.inr h)

theorem foldl_min_mem (xs : List Rat) (a : Rat) : xs.foldl min a ∈ a :: xs := by
  induction xs generalizing a with
  | nil => simp
  | cons b xs ih =>
    have := ih (min a b)
    rcases List.mem_cons.mp this with h | h
    · rcases min_choice a b with hm | hm <;> rw [List.foldl_cons, h, hm] <;> simp
    · simp [List.foldl_cons, List.mem_cons.mpr (Or.inr h)]

theorem listMin_le {l : List Rat} {x : Rat} (h : x ∈ l) : listMin l ≤ x := by
  cases l with
  | nil => simp at h
  | cons a xs =>
    rcases List.mem_cons.mp h with h | h
    · exact foldl_min_le (Or.inl h)
    · exact foldl_min_le (Or.inr h)

theorem listMin_mem {l : List Rat} (h : l ≠ []) : listMin l ∈ l := by
  cases l with
  | nil => exact absurd rfl h
  | cons a xs => exact foldl_min_mem xs a

/-! ### Sorted-list endpoints -/

theorem sorted_le_getLast : ∀ {l : List Rat}, l.Sorted (· ≤ ·) →
    ∀ {x : Rat}, x ∈ l → ∀ (h : l ≠ []), x ≤ l.getLast h
  | [], _, _, hx, h => absurd rfl h
  | [a], _, x, hx, _ => by
    simp at hx
    simp [hx, List.getLast]
  | a :: b :: l, hs, x, hx, h => by
    have hs' : (b :: l).Sorted (· ≤ ·) := hs.of_cons
    have hlast : (a :: b :: l).getLast h = (b :: l).getLast (by simp) := by
      simp [List.getLast]
    rcases List.mem_cons.mp hx with hx1 | hx1
    · subst hx1
      have hb : x ≤ b := List.rel_of_sorted_cons hs b (by simp)
      have hrec := sorted_le_getLast hs' (List.mem_cons_self b l) (by simp)
      rw [hlast]
      exact le_trans hb hrec
    · rw [hlast]
      exact sorted_le_getLast hs' hx1 (by simp)

theorem sorted_head_le {l : List Rat} (hs : l.Sorted (· ≤ ·)) {x : Rat} (hx : x ∈ l) :
    l.headD 0 ≤ x := by
  cases l with
  | nil => simp at hx
  | cons a rest =>
    rcases List.mem_cons.mp hx with h | h
    · simp [h]
    · simpa using List.rel_of_sorted_cons hs x h

theorem sortRats_perm (t : List Rat) : List.Perm (sortRats t) t :=
  List.perm_insertionSort (· ≤ ·) t

theorem sortRats_sorted (t : List Rat) : (sortRats t).Sorted (· ≤ ·) :=
  List.sorted_insertionSort (· ≤ ·) t

theorem sortRats_length (t : List Rat) : (sortRats t).length = t.length :=
  (sortRats_perm t).length_eq

theorem sortRats_ne_nil {t : List Rat} (h : t ≠ []) : sortRats t ≠ [] := by
  intro hnil
  have hp := sortRats_perm t
  rw [hnil] at hp
  exact h hp.symm.eq_nil

theorem sortRats_getD_last_eq_listMax (t0 : List Rat) (h : t0 ≠ []) :
    (sortRats t0).getD ((sortRats t0).length - 1) 0 = listMax t0 := by
  have hne : sortRats t0 ≠ [] := sortRats_ne_nil h
  have hlen : 0 < (sortRats t0).length := List.length_pos.mpr hne
  have hlt : (sortRats t0).length - 1 < (sortRats t0).length := by omega
  have hgd : (sortRats t0).getD ((sortRats t0).length - 1) 0
      = (sortRats t0).getLast hne := by
    rw [List.getD_eq_getElem _ _ hlt, List.getLast_eq_getElem (sortRats t0) hne]
  rw [hgd]
  have h1 : (sortRats t0).getLast hne ≤ listMax t0 :=
    le_listMax ((sortRats_perm t0).mem_iff.mp (List.getLast_mem hne))
  have h2 : listMax t0 ≤ (sortRats t0).getLast hne :=
    sorted_le_getLast (sortRats_sorted t0) ((sortRats_perm t0).mem_iff.mpr (listMax_mem h)) hne
  exact le_antisymm h1 h2

theorem sortRats_getD_zero_eq_listMin (t0 : List Rat) (h : t0 ≠ []) :
    (sortRats t0).getD 0 0 = listMin t0 := by
  have hne : sortRats t0 ≠ [] := sortRats_ne_nil h
  obtain ⟨a, rest, hcons⟩ := List.exists_cons_of_ne_nil hne
  have hgd : (sortRats t0).getD 0 0 = (sortRats t0).headD 0 := by
    rw [hcons]
    rfl
  rw [hgd]
  have hmem : (sortRats t0).headD 0 ∈ sortRats t0 := by
    rw [hcons]
    simp
  have h1 : listMin t0 ≤ (sortRats t0).headD 0 :=
    listMin_le ((sortRats_perm t0).mem_iff.mp hmem)
  have h2 : (sortRats t0).headD 0 ≤ listMin t0 :=
    sorted_head_le (sortRats_sorted t0) ((sortRats_perm t0).mem_iff.mpr (listMin_mem h))
  exact le_antisymm h2 h1

/-- Relative-negative gauge application is exactly clamped
subtraction. -/
theorem applyGauge_relneg (old d : Rat) :
    applyGauge old ⟨true, true, d⟩ = max 0 (old - d) := by
  by_cases hlt : old < d
  · simp only [applyGauge, if_pos hlt]
    rw [eq_comm]
    exact max_eq_left (by linarith)
  · simp only [applyGauge, if_neg hlt]
    rw [eq_comm]
    exact max_eq_right (by linarith)

/-! ### Claim C10: percentile index bounds -/

/-- C10: the claim says the percentile index always lies in `[0, n-1]`
for every percentile specifier; it does not.  Counterexample: with the
specifier `1` and two samples the code computes
`floor((1/100)*2 + 0.5) - 1 = -1`, so `t[indexOfPerc]` panics. -/
theorem pctIndex_claim_false : pctIndex 1 2 = -1 ∧ ¬ (0 ≤ pctIndex 1 2) := by
  have h : pctIndex 1 2 = -1 := by norm_num [pctIndex]
  refine ⟨h, ?_⟩
  rw [h]
  norm_num

/-- C10 (amended): the sorted-array index computed by the timers emitter
lies in `[0, n-1]` exactly when `50 ≤ P*n` and `P*n < 100*n + 50` (for a
non-negative specifier `P`), respectively `-50 ≤ (100+P)*n` and
`P*n < -50` (for a negative `P`); when these fail — e.g. `P = 1` with
`n = 2`, or `P = 0` — the index is out of range and the Go indexing
panics. -/
theorem pctIndex_in_bounds (p : Rat) (n : Nat) :
    (0 ≤ p →
      ((0 ≤ pctIndex p n ∧ (pctIndex p n).toNat < n) ↔
        (50 ≤ p * (n : Rat) ∧ p * (n : Rat) < 100 * (n : Rat) + 50))) ∧
    (p < 0 →
      ((0 ≤ pctIndex p n ∧ (pctIndex p n).toNat < n) ↔
        (-50 ≤ (100 + p) * (n : Rat) ∧ p * (n : Rat) < -50))) := by
  constructor
  · intro h0
    have hpe : pctIndex p n = ⌊p / 100 * (n : Rat) + 1 / 2⌋ - 1 := by
      simp [pctIndex, h0]
    have hx : p / 100 * (n : Rat) = p * (n : Rat) / 100 := by ring
    have hfl1 : (1 : Int) ≤ ⌊p / 100 * (n : Rat) + 1 / 2⌋ ↔ 50 ≤ p * (n : Rat) := by
      rw [Int.le_floor]
      push_cast
      rw [hx]
      constructor <;> intro h <;> linarith
    have hfl2 : ⌊p / 100 * (n : Rat) + 1 / 2⌋ < (n : Int) + 1 ↔
        p * (n : Rat) < 100 * (n : Rat) + 50 := by
      rw [Int.floor_lt]
      push_cast
      rw [hx]
      constructor <;> intro h <;> linarith
    rw [hpe]
    constructor
    · rintro ⟨hb1, hb2⟩
      exact ⟨hfl1.mp (by omega), hfl2.mp (by omega)⟩
    · rintro ⟨hb1, hb2⟩
      have h1 := hfl1.mpr hb1
      have h2 := hfl2.mpr hb2
      exact ⟨by omega, by omega⟩
  · intro hneg
    have hpe : pctIndex p n = ⌊(100 + p) / 100 * (n : Rat) + 1 / 2⌋ := by
      simp [pctIndex, not_le.mpr hneg]
    have hx : (100 + p) / 100 * (n : Rat) = (100 + p) * (n : Rat) / 100 := by ring
    have hx2 : (100 + p) * (n : Rat) = 100 * (n : Rat) + p * (n : Rat) := by ring
    have hfl1 : (0 : Int) ≤ ⌊(100 + p) / 100 * (n : Rat) + 1 / 2⌋ ↔
        -50 ≤ (100 + p) * (n : Rat) := by
      rw [Int.le_floor]
      push_cast
      rw [hx]
      constructor <;> intro h <;> linarith
    have hfl2 : ⌊(100 + p) / 100 * (n : Rat) + 1 / 2⌋ < (n : Int) ↔
        p * (n : Rat) < -50 := by
      rw [Int.floor_lt]
      push_cast
      rw [hx]
      constructor <;> intro h <;> linarith [hx2]
    rw [hpe]
    constructor
    · rintro ⟨hb1, hb2⟩
      exact ⟨hfl1.mp hb1, hfl2.mp (by omega)⟩
    · rintro ⟨hb1, hb2⟩
      have h1 := hfl1.mpr hb1
      have h2 := hfl2.mpr hb2
      exact ⟨h1, by omega⟩

/-- Witness for C10's amended theorem: specifier 90 with 3 samples
(index 2), specifier 100.5 with 2 samples (beyond 100 yet in bounds,
index 1), and specifier -50 with 4 samples (index 2). -/
theorem pctIndex_in_bounds_witness :
    (0 ≤ pctIndex 90 3 ∧ (pctIndex 90 3).toNat < 3) ∧
    (0 ≤ pctIndex (201 / 2) 2 ∧ (pctIndex (201 / 2) 2).toNat < 2) ∧
    (0 ≤ pctIndex (-50) 4 ∧ (pctIndex (-50) 4).toNat < 4) :=
  ⟨((pctIndex_in_bounds 90 3).1 (by norm_num)).mpr ⟨by norm_num, by norm_num⟩,
   ((pctIndex_in_bounds (201 / 2) 2).1 (by norm_num)).mpr ⟨by norm_num, by norm_num⟩,
   ((pctIndex_in_bounds (-50) 4).2 (by norm_num)).mpr ⟨by norm_num, by norm_num⟩⟩

/-! ### Claim C9: gauge value formatting -/

/-- C9: the claim says gauge values are emitted with the two-decimal
format used by timers; actually `processGauges` uses `%f`, which is six
decimal places: gauge value 0 renders as `0.000000`, not `0.00`. -/
theorem gauge_format_claim_false :
    (processGauges (stGauge "g" 0) 100).lines
      = [Line.mk "g" (EmitValue.flt 0 6) 100] ∧
    renderValue (EmitValue.flt (0 : Rat) 6) ≠ "0.00" := by
  refine ⟨rfl, ?_⟩
  norm_num [renderValue, formatFixed, zeroPad]
  decide

/-- C9 (amended): every flushed gauge bucket is emitted with the `%f`
format, i.e. a six-decimal float (value 0 renders as `0.000000`), unlike
the two-decimal `%0.2f` used for timer lines. -/
theorem gauges_emit_sixdecimal (st : AggState) (now : Int) (b : String) (v : Rat)
    (h : aget b st.gauges = some v) :
    findLine b (processGauges st now).lines = some (Line.mk b (EmitValue.flt v 6) now) ∧
    renderValue (EmitValue.flt (0 : Rat) 6) = "0.000000" := by
  constructor
  · have h2 := findLine_map_assoc (fun q => EmitValue.flt q 6) now b st.gauges
    rw [h] at h2
    simpa [processGauges] using h2
  · norm_num [renderValue, formatFixed, zeroPad]
    decide

/-- Witness for C9's amended theorem at a one-gauge state. -/
theorem gauges_emit_sixdecimal_witness :
    findLine "g" (processGauges (stGauge "g" 2) 100).lines
      = some (Line.mk "g" (EmitValue.flt 2 6) 100) ∧
    renderValue (EmitValue.flt (0 : Rat) 6) = "0.000000" :=
  gauges_emit_sixdecimal (stGauge "g" 2) 100 "g" 2 rfl

/-! ### Claim C8: sentinel address disables flushing -/

/-- C8: with the sentinel graphite address `-`, `submit` returns success
immediately: no emitter runs, nothing is written, and every aggregator
table (counters, count-inactivity, gauges, timers, sets) is exactly the
state passed in. -/
theorem submit_sentinel_noop (debug dialOk deadlineOk writeOk : Bool) (st : AggState)
    (now persistCountKeys : Int) (pctls : List Percentile) :
    submit "-" debug dialOk deadlineOk writeOk st now persistCountKeys pctls
      = { st := st, written := [], err := none } := by
  simp [submit]

/-! ### Claim C7: dial failure in non-debug mode -/

/-- C7: when dialing the downstream fails and debug mode is off,
`submit` returns an error, writes nothing, and leaves the whole
aggregator state (counters, timers, gauges, sets, count-inactivity)
untouched. -/
theorem submit_dial_failure_preserves_state (graphiteAddress : String)
    (deadlineOk writeOk : Bool) (st : AggState) (now persistCountKeys : Int)
    (pctls : List Percentile) (haddr : graphiteAddress ≠ "-") :
    (submit graphiteAddress false false deadlineOk writeOk st now persistCountKeys pctls).st = st ∧
    (submit graphiteAddress false false deadlineOk writeOk st now persistCountKeys pctls).written = [] ∧
    (submit graphiteAddress false false deadlineOk writeOk st now persistCountKeys pctls).err
      = some ("dialing " ++ graphiteAddress ++ " failed") := by
  simp [submit, haddr]

/-- Witness for C7 at the default graphite address and a nonempty state. -/
theorem submit_dial_failure_preserves_state_witness :
    (submit "127.0.0.1:2003" false false true true (stCounter "a" 1) 5 60 []).st
      = stCounter "a" 1 ∧
    (submit "127.0.0.1:2003" false false true true (stCounter "a" 1) 5 60 []).written = [] ∧
    (submit "127.0.0.1:2003" false false true true (stCounter "a" 1) 5 60 []).err
      = some ("dialing " ++ "127.0.0.1:2003" ++ " failed") :=
  submit_dial_failure_preserves_state "127.0.0.1:2003" true true (stCounter "a" 1)
    5 60 [] (by decide)

/-! ### Claim C5: relative-negative gauge saturation -/

/-- C5: the claim (final clamp of the plain accumulator) fails once an
intermediate clamp has fired and a later negative magnitude (parseable
via `bucket:--7|g`) pushes the value back up: from 5, magnitudes
`[10, -7]` leave the stored gauge at 7, not `max 0 (5 - 10 - (-7)) = 2`. -/
theorem gauge_relneg_claim_false :
    (aget "g" ((mkGaugeNegPackets "g" [10, -7]).foldl (packetHandler "")
        (stGauge "g" 5)).gauges).getD 0
      ≠ max 0 ((5 : Rat) - 10 - (-7)) := by
  intro hcontra
  have h1 : (aget "g" ((mkGaugeNegPackets "g" [10, -7]).foldl (packetHandler "")
      (stGauge "g" 5)).gauges).getD 0 = 7 := by
    simp [mkGaugeNegPackets, stGauge, packetHandler, bumpReceive, applyGauge, aget, aset]
    norm_num
  rw [h1] at hcontra
  have h2 : max (0 : Rat) (5 - 10 - (-7)) = 2 := by norm_num
  rw [h2] at hcontra
  norm_num at hcontra

/-- C5 (amended): starting from a non-negative stored value and applying
relative-negative gauge events whose magnitudes are all non-negative,
the stored value equals `max 0 (v0 - Σ d_i)`. -/
theorem gauge_relneg_saturates (st0 : AggState) (b : String) (ds : List Rat)
    (hv : 0 ≤ (aget b st0.gauges).getD 0) (hd : ∀ d ∈ ds, 0 ≤ d) :
    (aget b ((mkGaugeNegPackets b ds).foldl (packetHandler "") st0).gauges).getD 0
      = max 0 ((aget b st0.gauges).getD 0 - ds.sum) := by
  induction ds generalizing st0 with
  | nil =>
    simp only [mkGaugeNegPackets, List.map_nil, List.foldl_nil, List.sum_nil, sub_zero]
    exact (max_eq_right hv).symm
  | cons d rest ih =>
    have hdr : ∀ x ∈ rest, 0 ≤ x := fun x hx => hd x (List.mem_cons_of_mem d hx)
    have hsum : 0 ≤ rest.sum := List.sum_nonneg hdr
    simp only [mkGaugeNegPackets, List.map_cons, List.foldl_cons]
    have hstep : (packetHandler "" st0
        { Bucket := b, Value := PacketValue.gauge ⟨true, true, d⟩,
          Modifier := "g", Sampling := 1 }).gauges
        = aset b (applyGauge ((aget b st0.gauges).getD 0) ⟨true, true, d⟩) st0.gauges := by
      simp [packetHandler, bumpReceive]
    have happ : applyGauge ((aget b st0.gauges).getD 0) ⟨true, true, d⟩
        = max 0 ((aget b st0.gauges).getD 0 - d) :=
      applyGauge_relneg _ d
    have hget1 : (aget b (packetHandler "" st0
        { Bucket := b, Value := PacketValue.gauge ⟨true, true, d⟩,
          Modifier := "g", Sampling := 1 }).gauges).getD 0
        = max 0 ((aget b st0.gauges).getD 0 - d) := by
      rw [hstep, aget_aset_self, happ]
      rfl
    have hrec := ih (packetHandler "" st0
        { Bucket := b, Value := PacketValue.gauge ⟨true, true, d⟩,
          Modifier := "g", Sampling := 1 })
      (by rw [hget1]; exact le_max_left 0 _) hdr
    simp only [mkGaugeNegPackets] at hrec
    rw [hrec, hget1, List.sum_cons]
    by_cases h0 : 0 ≤ (aget b st0.gauges).getD 0 - d
    · rw [max_eq_right h0]
      congr 1
      ring
    · push_neg at h0
      rw [max_eq_left (le_of_lt h0)]
      rw [max_eq_left (by linarith), max_eq_left (by linarith)]

/-- Witness for C5's amended theorem: from 9, magnitudes `[4, 2]`. -/
theorem gauge_relneg_saturates_witness :
    (aget "g" ((mkGaugeNegPackets "g" [4, 2]).foldl (packetHandler "")
        (stGauge "g" 9)).gauges).getD 0
      = max 0 ((aget "g" (stGauge "g" 9).gauges).getD 0 - ([4, 2] : List Rat).sum) :=
  gauge_relneg_saturates (stGauge "g" 9) "g" [4, 2]
    (by norm_num [aget, stGauge])
    (by
      intro d hd
      rcases List.mem_cons.mp hd with h | h
      · rw [h]; norm_num
      · rcases List.mem_cons.mp h with h1 | h1
        · rw [h1]; norm_num
        · simp at h1)

/-! ### Claim C2: counter sampling correction -/

/-- Specialization of `findLine_map_assoc` to the counter line shape. -/
theorem findLine_map_int (now : Int) (b : String) (l : List (String × Int)) :
    findLine b (l.map fun p => Line.mk p.1 (EmitValue.int p.2) now)
      = (aget b l).map fun v => Line.mk b (EmitValue.int v) now :=
  findLine_map_assoc (fun v => EmitValue.int v) now b l

/-- Folding counter packets for a bucket adds the truncated sampling-corrected
deltas to the accumulator. -/
theorem counters_fold_aget (b : String) (ds : List (Int × Rat)) :
    ∀ (st : AggState) (x : Int), aget b st.counters = some x →
      aget b ((mkCounterPackets b ds).foldl (packetHandler "") st).counters
        = some (x + (ds.map fun p => ratTrunc ((p.1 : Rat) * (1 / p.2))).sum) := by
  induction ds with
  | nil =>
    intro st x h
    simpa [mkCounterPackets] using h
  | cons d rest ih =>
    intro st x h
    simp only [mkCounterPackets, List.map_cons, List.foldl_cons, List.sum_cons]
    have h1 : aget b (packetHandler "" st
        { Bucket := b, Value := PacketValue.int d.1, Modifier := "c", Sampling := d.2 }).counters
        = some (x + ratTrunc ((d.1 : Rat) * (1 / d.2))) := by
      simp [packetHandler, bumpReceive, h, aget_aset_self]
    have hrec := ih (packetHandler "" st
        { Bucket := b, Value := PacketValue.int d.1, Modifier := "c", Sampling := d.2 })
      (x + ratTrunc ((d.1 : Rat) * (1 / d.2))) h1
    simp only [mkCounterPackets] at hrec
    rw [hrec]
    congr 1
    ring

/-- C2: a counter bucket receiving events with integer deltas `d_i` and
sampling rates `r_i` within one window emits, at the next flush, exactly
`Σ trunc(d_i / r_i)` (the code computes `trunc(d_i * (1/r_i))`, equal to
it in exact arithmetic). -/
theorem counter_flush_emits_sampled_sum (st0 : AggState) (b : String)
    (ds : List (Int × Rat)) (persistCountKeys now : Int)
    (h0 : aget b st0.counters = none) (hne : ds ≠ []) :
    findLine b (processCounters ((mkCounterPackets b ds).foldl (packetHandler "") st0)
        persistCountKeys now).lines
      = some (Line.mk b
          (EmitValue.int ((ds.map fun p => ratTrunc ((p.1 : Rat) / p.2)).sum)) now) := by
  simp only [div_eq_mul_inv, one_div]
  obtain ⟨d, rest, rfl⟩ := List.exists_cons_of_ne_nil hne
  have h1 : aget b (packetHandler "" st0
      { Bucket := b, Value := PacketValue.int d.1, Modifier := "c", Sampling := d.2 }).counters
      = some (ratTrunc ((d.1 : Rat) * d.2⁻¹)) := by
    simp [packetHandler, bumpReceive, h0, aget_aset_self]
  have hfold := counters_fold_aget b rest (packetHandler "" st0
      { Bucket := b, Value := PacketValue.int d.1, Modifier := "c", Sampling := d.2 })
    (ratTrunc ((d.1 : Rat) * d.2⁻¹)) h1
  simp only [mkCounterPackets, List.map_cons, List.foldl_cons, List.sum_cons] at hfold ⊢
  simp only [one_div] at hfold
  simp only [processCounters]
  refine findLine_append_some ?_
  rw [findLine_map_int, hfold]
  rfl

/-- Witness for C2: events `foo:1|c` and `foo:2|c|@0.5` emit `stats` sum
`trunc(1/1) + trunc(2/(1/2)) = 5`. -/
theorem counter_flush_emits_sampled_sum_witness :
    findLine "foo" (processCounters
        ((mkCounterPackets "foo" [(1, 1), (2, 1/2)]).foldl (packetHandler "") emptyAgg)
        60 100).lines
      = some (Line.mk "foo"
          (EmitValue.int ((([(1, 1), (2, 1/2)] : List (Int × Rat)).map
            fun p => ratTrunc ((p.1 : Rat) / p.2)).sum)) 100) :=
  counter_flush_emits_sampled_sum emptyAgg "foo" [(1, 1), (2, 1/2)] 60 100 rfl (by simp)

/-! ### Claim C4: timer summary lines -/

/-- C4: for a non-empty timer bucket the emitter produces, after the
percentile lines, exactly the `mean`, `median`, `upper`, `lower` and
`count` lines with the arithmetic mean, `sorted(S)[|S|/2]`, max, min and
sample count, and `processTimers` deletes the bucket. -/
theorem timer_stats_emitted (u : String) (now : Int) (t0 : List Rat)
    (pctls : List Percentile) (st : AggState) (h : t0 ≠ []) :
    (processTimerBucket u t0 now pctls).drop pctls.length =
      [Line.mk (u ++ ".mean") (EmitValue.flt (t0.sum / (t0.length : Rat)) 2) now,
       Line.mk (u ++ ".median") (EmitValue.flt ((sortRats t0).getD (t0.length / 2) 0) 2) now,
       Line.mk (u ++ ".upper") (EmitValue.flt (listMax t0) 2) now,
       Line.mk (u ++ ".lower") (EmitValue.flt (listMin t0) 2) now,
       Line.mk (u ++ ".count") (EmitValue.int (t0.length : Int)) now] ∧
    aget u (processTimers st now pctls).st.timers = none := by
  constructor
  · simp only [processTimerBucket]
    rw [List.drop_left' (by rw [List.length_map])]
    rw [sortRats_getD_last_eq_listMax t0 h, sortRats_getD_zero_eq_listMin t0 h,
      (sortRats_perm t0).sum_eq, sortRats_length]
  · rfl

/-- Witness for C4 at the bucket `lat` with samples `[3, 1, 2]` and no
percentiles configured. -/
theorem timer_stats_emitted_witness :
    (processTimerBucket "lat" [3, 1, 2] 100 []).drop ([] : List Percentile).length =
      [Line.mk ("lat" ++ ".mean")
        (EmitValue.flt (([3, 1, 2] : List Rat).sum / ((([3, 1, 2] : List Rat).length : Nat) : Rat)) 2) 100,
       Line.mk ("lat" ++ ".median")
        (EmitValue.flt ((sortRats [3, 1, 2]).getD (([3, 1, 2] : List Rat).length / 2) 0) 2) 100,
       Line.mk ("lat" ++ ".upper") (EmitValue.flt (listMax [3, 1, 2]) 2) 100,
       Line.mk ("lat" ++ ".lower") (EmitValue.flt (listMin [3, 1, 2]) 2) 100,
       Line.mk ("lat" ++ ".count") (EmitValue.int (([3, 1, 2] : List Rat).length : Int)) 100] ∧
    aget "lat" (processTimers emptyAgg 100 []).st.timers = none :=
  timer_stats_emitted "lat" 100 [3, 1, 2] [] emptyAgg (by simp)

/-! ### Claim C1: percentile line values -/

/-- C1: for the `i`-th configured percentile specifier `P`: with more
than one sample and `P ≥ 0` the emitted `upper_<P>` value is
`sorted(S)[floor((P/100)*|S| + 0.5) - 1]`; with `P < 0` the emitted
`lower_<|P|>` value is `sorted(S)[floor(((100+P)/100)*|S| + 0.5)]` with
no off-by-one decrement; with at most one sample the emitted percentile
value is `max(S)`.  The index hypotheses state that the (possibly
panicking, see C10) rank is in range. -/
theorem timer_percentile_emitted (u : String) (now : Int) (t0 : List Rat)
    (pctls : List Percentile) (i : Nat) (p : Percentile) (hp : pctls[i]? = some p) :
    ((1 < t0.length ∧ 0 ≤ p.float) →
      0 ≤ ⌊p.float / 100 * (t0.length : Rat) + 1 / 2⌋ - 1 →
      ∀ hlt : (⌊p.float / 100 * (t0.length : Rat) + 1 / 2⌋ - 1).toNat < (sortRats t0).length,
        (processTimerBucket u t0 now pctls)[i]?
          = some (Line.mk (u ++ ".upper_" ++ p.str)
              (EmitValue.flt ((sortRats t0).get
                ⟨(⌊p.float / 100 * (t0.length : Rat) + 1 / 2⌋ - 1).toNat, hlt⟩) 2) now)) ∧
    ((1 < t0.length ∧ p.float < 0) →
      0 ≤ ⌊(100 + p.float) / 100 * (t0.length : Rat) + 1 / 2⌋ →
      ∀ hlt : (⌊(100 + p.float) / 100 * (t0.length : Rat) + 1 / 2⌋).toNat < (sortRats t0).length,
        (processTimerBucket u t0 now pctls)[i]?
          = some (Line.mk (u ++ ".lower_" ++ p.str.drop 1)
              (EmitValue.flt ((sortRats t0).get
                ⟨(⌊(100 + p.float) / 100 * (t0.length : Rat) + 1 / 2⌋).toNat, hlt⟩) 2) now)) ∧
    ((t0.length ≤ 1 ∧ t0 ≠ []) →
      ((processTimerBucket u t0 now pctls)[i]?).map Line.value
        = some (EmitValue.flt (listMax t0) 2)) := by
  have hi : i < pctls.length := by
    by_contra hc
    push_neg at hc
    rw [List.getElem?_eq_none hc] at hp
    exact Option.noConfusion hp
  have heval : (processTimerBucket u t0 now pctls)[i]? = some (
      if 0 ≤ p.float then
        Line.mk (u ++ ".upper_" ++ p.str)
          (EmitValue.flt (if 1 < (sortRats t0).length
            then (sortRats t0).getD (pctIndex p.float (sortRats t0).length).toNat 0
            else (sortRats t0).getD ((sortRats t0).length - 1) 0) 2) now
      else
        Line.mk (u ++ ".lower_" ++ p.str.drop 1)
          (EmitValue.flt (if 1 < (sortRats t0).length
            then (sortRats t0).getD (pctIndex p.float (sortRats t0).length).toNat 0
            else (sortRats t0).getD ((sortRats t0).length - 1) 0) 2) now) := by
    simp only [processTimerBucket]
    rw [List.getElem?_append_left (by simpa using hi), List.getElem?_map, hp]
    rfl
  refine ⟨?_, ?_, ?_⟩
  · rintro ⟨h1, hpos⟩ hnn hlt
    have hlen : 1 < (sortRats t0).length := by
      rw [sortRats_length]
      exact h1
    have hidx : pctIndex p.float (sortRats t0).length
        = ⌊p.float / 100 * (t0.length : Rat) + 1 / 2⌋ - 1 := by
      simp [pctIndex, hpos, sortRats_length]
    have hval : (sortRats t0).getD (pctIndex p.float (sortRats t0).length).toNat 0
        = (sortRats t0).get ⟨(⌊p.float / 100 * (t0.length : Rat) + 1 / 2⌋ - 1).toNat, hlt⟩ := by
      rw [hidx, List.getD_eq_getElem _ _ hlt, List.get_eq_getElem]
    rw [heval, if_pos hpos, if_pos hlen, hval]
  · rintro ⟨h1, hneg⟩ hnn hlt
    have hlen : 1 < (sortRats t0).length := by
      rw [sortRats_length]
      exact h1
    have hidx : pctIndex p.float (sortRats t0).length
        = ⌊(100 + p.float) / 100 * (t0.length : Rat) + 1 / 2⌋ := by
      simp [pctIndex, not_le.mpr hneg, sortRats_length]
    have hval : (sortRats t0).getD (pctIndex p.float (sortRats t0).length).toNat 0
        = (sortRats t0).get ⟨(⌊(100 + p.float) / 100 * (t0.length : Rat) + 1 / 2⌋).toNat, hlt⟩ := by
      rw [hidx, List.getD_eq_getElem _ _ hlt, List.get_eq_getElem]
    rw [heval, if_neg (not_le.mpr hneg), if_pos hlen, hval]
  · rintro ⟨hle, hne⟩
    have hlen : ¬ 1 < (sortRats t0).length := by
      rw [sortRats_length]
      omega
    have hmax : (sortRats t0).getD ((sortRats t0).length - 1) 0 = listMax t0 :=
      sortRats_getD_last_eq_listMax t0 hne
    rw [heval]
    by_cases hs : 0 ≤ p.float
    · rw [if_pos hs, if_neg hlen, hmax]
      rfl
    · rw [if_neg hs, if_neg hlen, hmax]
      rfl

/-- Witness for C1: specifier 90 over `[1,2,3]` (index 2), specifier
-50 over `[1,2,3,4]` (index 2, no decrement), and specifier 90 over a
one-sample bucket (max). -/
theorem timer_percentile_emitted_witness :
    ((processTimerBucket "lat" [1, 2, 3] 100 [⟨90, "90"⟩])[0]?
      = some (Line.mk ("lat" ++ ".upper_" ++ "90")
          (EmitValue.flt ((sortRats [1, 2, 3]).get
            ⟨(⌊(90 : Rat) / 100 * (([1, 2, 3] : List Rat).length : Rat) + 1 / 2⌋ - 1).toNat,
             by rw [sortRats_length]; norm_num⟩) 2) 100)) ∧
    ((processTimerBucket "lat" [1, 2, 3, 4] 100 [⟨-50, "-50"⟩])[0]?
      = some (Line.mk ("lat" ++ ".lower_" ++ ("-50" : String).drop 1)
          (EmitValue.flt ((sortRats [1, 2, 3, 4]).get
            ⟨(⌊(100 + (-50 : Rat)) / 100 * (([1, 2, 3, 4] : List Rat).length : Rat) + 1 / 2⌋).toNat,
             by rw [sortRats_length]; norm_num⟩) 2) 100)) ∧
    (((processTimerBucket "lat" [7] 100 [⟨90, "90"⟩])[0]?).map Line.value
      = some (EmitValue.flt (listMax [7]) 2)) :=
  ⟨(timer_percentile_emitted "lat" 100 [1, 2, 3] [⟨90, "90"⟩] 0 ⟨90, "90"⟩ rfl).1
      ⟨by norm_num, by norm_num⟩ (by norm_num) (by rw [sortRats_length]; norm_num),
   (timer_percentile_emitted "lat" 100 [1, 2, 3, 4] [⟨-50, "-50"⟩] 0 ⟨-50, "-50"⟩ rfl).2.1
      ⟨by norm_num, by norm_num⟩ (by norm_num) (by rw [sortRats_length]; norm_num),
   (timer_percentile_emitted "lat" 100 [7] [⟨90, "90"⟩] 0 ⟨90, "90"⟩ rfl).2.2
      ⟨by norm_num, by norm_num⟩⟩

/-! ### Claim C3: counter-inactivity zero fill -/

/-- Invariant of iterated counter flushes after a bucket's last live
emission: the bucket leaves `counters`, key-nodup of the inactivity map
is preserved, and the bucket's ticker after `m+1` flushes is `m+1`
while `m+1 ≤ persistCountKeys`, and gone afterwards. -/
theorem flushCounters_inv (st0 : AggState) (b : String) (V K now : Int)
    (hV : aget b st0.counters = some V) (hnd : keysNodup st0.countInactivity) :
    ∀ m : Nat,
      (flushCountersState K now st0 (m + 1)).counters = [] ∧
      keysNodup (flushCountersState K now st0 (m + 1)).countInactivity ∧
      aget b (flushCountersState K now st0 (m + 1)).countInactivity
        = (if ((m : Int) + 1) ≤ K then some ((m : Int) + 1) else none) := by
  intro m
  induction m with
  | zero =>
    have hmem : b ∈ st0.counters.map Prod.fst := by
      by_contra hm
      have hnone : aget b st0.counters = none :=
        aget_eq_none_iff.mpr fun q hq he => hm (he ▸ List.mem_map_of_mem Prod.fst hq)
      rw [hnone] at hV
      exact Option.noConfusion hV
    have hin1 : aget b (st0.counters.foldl (fun m p => aset p.1 (0 : Int) m)
        st0.countInactivity) = some 0 := by
      rw [aget_foldl_aset_zero, if_pos hmem]
    have hnd1 : keysNodup (st0.counters.foldl (fun m p => aset p.1 (0 : Int) m)
        st0.countInactivity) :=
      keysNodup_foldl_aset_zero st0.counters hnd
    refine ⟨rfl, keysNodup_fm_incr K hnd1, ?_⟩
    show aget b ((st0.counters.foldl (fun m p => aset p.1 (0 : Int) m)
        st0.countInactivity).filterMap
        fun p => if K < p.2 + 1 then none else some (p.1, p.2 + 1)) = _
    rw [aget_fm_incr_of_some K hnd1 hin1]
    by_cases hK1 : (1 : Int) ≤ K
    · rw [if_neg (by omega), if_pos (by push_cast; omega)]
      norm_num
    · rw [if_pos (by omega), if_neg (by push_cast; omega)]
  | succ m ihm =>
    obtain ⟨hc, hnd', hag⟩ := ihm
    refine ⟨rfl, ?_, ?_⟩
    · show keysNodup (((flushCountersState K now st0 (m + 1)).counters.foldl
          (fun m p => aset p.1 (0 : Int) m)
          (flushCountersState K now st0 (m + 1)).countInactivity).filterMap
          fun p => if K < p.2 + 1 then none else some (p.1, p.2 + 1))
      rw [hc]
      exact keysNodup_fm_incr K hnd'
    · show aget b (((flushCountersState K now st0 (m + 1)).counters.foldl
          (fun m p => aset p.1 (0 : Int) m)
          (flushCountersState K now st0 (m + 1)).countInactivity).filterMap
          fun p => if K < p.2 + 1 then none else some (p.1, p.2 + 1)) = _
      rw [hc]
      simp only [List.foldl_nil]
      by_cases hm1 : ((m : Int) + 1) ≤ K
      · rw [if_pos hm1] at hag
        rw [aget_fm_incr_of_some K hnd' hag]
        by_cases hm2 : ((m : Int) + 1 + 1) ≤ K
        · rw [if_neg (by omega), if_pos (by push_cast; omega)]
          push_cast
          ring_nf
        · rw [if_pos (by omega), if_neg (by push_cast; omega)]
      · rw [if_neg hm1] at hag
        rw [aget_fm_incr_of_none K hag]
        rw [if_neg (by push_cast; omega)]

/-- C3: a counter bucket that emits value `V` at a flush and then
receives nothing emits a zero line at each of exactly the next
`persistCountKeys` flushes, and no line at any flush after that. -/
theorem counter_inactivity_window (st0 : AggState) (b : String) (V K now : Int)
    (hV : aget b st0.counters = some V) (hnd : keysNodup st0.countInactivity)
    (hK : 0 ≤ K) :
    findLine b (flushCountersLines K now st0 0) = some (Line.mk b (EmitValue.int V) now) ∧
    (∀ j : Nat, 1 ≤ j → (j : Int) ≤ K →
      findLine b (flushCountersLines K now st0 j) = some (Line.mk b (EmitValue.int 0) now)) ∧
    (∀ j : Nat, K < (j : Int) → findLine b (flushCountersLines K now st0 j) = none) := by
  refine ⟨?_, ?_, ?_⟩
  · have hlines : flushCountersLines K now st0 0 = (processCounters st0 K now).lines := rfl
    rw [hlines]
    simp only [processCounters]
    refine findLine_append_some ?_
    rw [findLine_map_int, hV]
    rfl
  · intro j hj1 hjK
    obtain ⟨m, rfl⟩ : ∃ m, j = m + 1 := ⟨j - 1, by omega⟩
    obtain ⟨hc, hnd', hag⟩ := flushCounters_inv st0 b V K now hV hnd m
    have hlines : flushCountersLines K now st0 (m + 1)
        = (processCounters (flushCountersState K now st0 (m + 1)) K now).lines := rfl
    rw [hlines]
    simp only [processCounters]
    rw [hc]
    simp only [List.map_nil, List.foldl_nil, List.nil_append]
    rw [if_pos (by push_cast at hjK ⊢; omega)] at hag
    rw [findLine_fm_zero_of_aget_some now hnd' hag]
    rw [if_pos (by omega)]
  · intro j hjK
    obtain ⟨m, rfl⟩ : ∃ m, j = m + 1 := ⟨j - 1, by omega⟩
    obtain ⟨hc, hnd', hag⟩ := flushCounters_inv st0 b V K now hV hnd m
    have hlines : flushCountersLines K now st0 (m + 1)
        = (processCounters (flushCountersState K now st0 (m + 1)) K now).lines := rfl
    rw [hlines]
    simp only [processCounters]
    rw [hc]
    simp only [List.map_nil, List.foldl_nil, List.nil_append]
    rw [if_neg (by push_cast at hjK ⊢; omega)] at hag
    exact findLine_fm_zero_of_aget_none now hag

/-- Witness for C3: bucket `c` with value 7 and `persistCountKeys = 2`
emits `7`, then `0`, `0`, then nothing. -/
theorem counter_inactivity_window_witness :
    findLine "c" (flushCountersLines 2 100 (stCounter "c" 7) 0)
      = some (Line.mk "c" (EmitValue.int 7) 100) ∧
    findLine "c" (flushCountersLines 2 100 (stCounter "c" 7) 1)
      = some (Line.mk "c" (EmitValue.int 0) 100) ∧
    findLine "c" (flushCountersLines 2 100 (stCounter "c" 7) 2)
      = some (Line.mk "c" (EmitValue.int 0) 100) ∧
    findLine "c" (flushCountersLines 2 100 (stCounter "c" 7) 3) = none := by
  have h := counter_inactivity_window (stCounter "c" 7) "c" 7 2 100 rfl
    (by simp [stCounter, keysNodup]) (by norm_num)
  exact ⟨h.1, h.2.1 1 (by norm_num) (by norm_num),
    h.2.1 2 (by norm_num) (by norm_num), h.2.2 3 (by norm_num)⟩

/-! ### Claim C6: type-indicator dispatch -/

theorem idxOf_append_cons (c : Char) (l1 l2 : List Char) (h : c ∉ l1) :
    idxOf c (l1 ++ c :: l2) = some l1.length := by
  induction l1 with
  | nil => simp [idxOf]
  | cons x xs ih =>
    have hx : x ≠ c := fun he => h (he ▸ List.mem_cons_self x xs)
    have hxs : c ∉ xs := fun hm => h (List.mem_cons_of_mem x hm)
    simp [idxOf, hx, ih hxs]

theorem splitOnNl_no_nl (l : List Char) (h : '\n' ∉ l) : splitOnNl l = [l] := by
  induction l with
  | nil => rfl
  | cons c rest ih =>
    have hc : c ≠ '\n' := fun he => h (he ▸ List.mem_cons_self c rest)
    have hrest : '\n' ∉ rest := fun hm => h (List.mem_cons_of_mem c hm)
    simp [splitOnNl, hc, ih hrest]

theorem splitOnNl_append (l rest : List Char) (h : '\n' ∉ l) :
    splitOnNl (l ++ '\n' :: rest) = l :: splitOnNl rest := by
  induction l with
  | nil => simp [splitOnNl]
  | cons c l' ih =>
    have hc : c ≠ '\n' := fun he => h (he ▸ List.mem_cons_self c l')
    have hl : '\n' ∉ l' := fun hm => h (List.mem_cons_of_mem c hm)
    simp [splitOnNl, hc, ih hl]

theorem getD_append_len (l1 : List Char) (x : Char) (l2 : List Char) (d : Char) :
    (l1 ++ x :: l2).getD l1.length d = x := by
  induction l1 with
  | nil => rfl
  | cons y ys ih => simpa using ih

/-- One line with a single unknown type character (not `c`, `g`, `s`,
`m`) is NOT rejected: the value is parsed as a float and the packet
carries the unknown modifier. -/
theorem parseLine_unknown_char (name val : List Char) (ch : Char) (q : Rat)
    (hname : ':' ∉ name) (hval : '|' ∉ val)
    (hc : ch ≠ 'c') (hg : ch ≠ 'g') (hs : ch ≠ 's') (hm : ch ≠ 'm')
    (hq : parseFloat val = some q) :
    parseLine (name ++ ':' :: (val ++ '|' :: [ch]))
      = some { Bucket := pfxStats ++ String.mk name, Value := PacketValue.float q,
               Modifier := String.mk [ch], Sampling := 1 } := by
  have h1 : idxOf ':' (name ++ ':' :: (val ++ '|' :: [ch])) = some name.length :=
    idxOf_append_cons ':' name _ hname
  have hlen : (name ++ ':' :: (val ++ '|' :: [ch])).length = name.length + val.length + 3 := by
    simp only [List.length_append, List.length_cons, List.length_nil]
    omega
  have hcond1 : ¬ (name.length = (name ++ ':' :: (val ++ '|' :: [ch])).length - 1) := by
    rw [hlen]
    omega
  have hdrop : (name ++ ':' :: (val ++ '|' :: [ch])).drop (name.length + 1)
      = val ++ '|' :: [ch] := by
    have heq : name ++ ':' :: (val ++ '|' :: [ch])
        = (name ++ [':']) ++ (val ++ '|' :: [ch]) := by simp
    rw [heq, List.drop_left' (by simp)]
  have h2 : idxOf '|' (val ++ '|' :: [ch]) = some val.length :=
    idxOf_append_cons '|' val _ hval
  have hlen2 : (val ++ '|' :: [ch]).length = val.length + 2 := by
    simp only [List.length_append, List.length_cons, List.length_nil]
  have hcond2 : ¬ (val.length = (val ++ '|' :: [ch]).length - 1) := by
    rw [hlen2]
    omega
  have hgetD : (val ++ '|' :: [ch]).getD (val.length + 1) ' ' = ch := by
    have heq : val ++ '|' :: [ch] = (val ++ ['|']) ++ ch :: [] := by simp
    have hl : (val ++ ['|']).length = val.length + 1 := by simp
    rw [heq, ← hl, getD_append_len]
  have hdrop2 : (val ++ '|' :: [ch]).drop (val.length + 2) = [] := by
    apply List.drop_eq_nil_of_le
    rw [hlen2]
  simp only [parseLine, h1, hcond1, if_false, List.take_left, hdrop, h2, hcond2,
    hgetD, hm, hdrop2]
  simp only [parseTail, List.headD_cons, hc, hg, hs, if_false, hq, Option.map_some]
  simp [List.take]

/-- One line whose type indicator is `m` not followed by `s` is
rejected. -/
theorem parseLine_m_not_s (name val : List Char) (ch2 : Char)
    (hname : ':' ∉ name) (hval : '|' ∉ val) (hs : ch2 ≠ 's') :
    parseLine (name ++ ':' :: (val ++ '|' :: 'm' :: [ch2])) = none := by
  have h1 : idxOf ':' (name ++ ':' :: (val ++ '|' :: 'm' :: [ch2])) = some name.length :=
    idxOf_append_cons ':' name _ hname
  have hlen : (name ++ ':' :: (val ++ '|' :: 'm' :: [ch2])).length
      = name.length + val.length + 4 := by
    simp only [List.length_append, List.length_cons, List.length_nil]
    omega
  have hcond1 : ¬ (name.length = (name ++ ':' :: (val ++ '|' :: 'm' :: [ch2])).length - 1) := by
    rw [hlen]
    omega
  have hdrop : (name ++ ':' :: (val ++ '|' :: 'm' :: [ch2])).drop (name.length + 1)
      = val ++ '|' :: 'm' :: [ch2] := by
    have heq : name ++ ':' :: (val ++ '|' :: 'm' :: [ch2])
        = (name ++ [':']) ++ (val ++ '|' :: 'm' :: [ch2]) := by simp
    rw [heq, List.drop_left' (by simp)]
  have h2 : idxOf '|' (val ++ '|' :: 'm' :: [ch2]) = some val.length :=
    idxOf_append_cons '|' val _ hval
  have hlen2 : (val ++ '|' :: 'm' :: [ch2]).length = val.length + 3 := by
    simp only [List.length_append, List.length_cons, List.length_nil]
  have hcond2 : ¬ (val.length = (val ++ '|' :: 'm' :: [ch2]).length - 1) := by
    rw [hlen2]
    omega
  have hgetD : (val ++ '|' :: 'm' :: [ch2]).getD (val.length + 1) ' ' = 'm' := by
    have heq : val ++ '|' :: 'm' :: [ch2] = (val ++ ['|']) ++ 'm' :: [ch2] := by simp
    have hl : (val ++ ['|']).length = val.length + 1 := by simp
    rw [heq, ← hl, getD_append_len]
  have hgetD2 : (val ++ '|' :: 'm' :: [ch2]).getD (val.length + 2) ' ' = ch2 := by
    have heq : val ++ '|' :: 'm' :: [ch2] = (val ++ ['|', 'm']) ++ ch2 :: [] := by simp
    have hl : (val ++ ['|', 'm']).length = val.length + 2 := by simp
    rw [heq, ← hl, getD_append_len]
  have hbad : (val ++ '|' :: 'm' :: [ch2]).length ≤ val.length + 2 ∨
      (val ++ '|' :: 'm' :: [ch2]).getD (val.length + 2) ' ' ≠ 's' := by
    right
    rw [hgetD2]
    exact hs
  simp only [parseLine, h1, hcond1, if_false, List.take_left, hdrop, h2, hcond2,
    hgetD, if_pos rfl, hbad, if_true]

/-- C6: the claim "any type indicator other than c, g, s, ms causes the
line to be rejected, producing no event" is false: the parser parses the
value as a float and produces an event with the unknown modifier (which
the aggregator then ignores).  Concretely, `a:3|x` yields one packet with
modifier `x`. -/
theorem parse_unknown_type_claim_false :
    parseMessage ("a:3|x".data)
      = [{ Bucket := "stats.a", Value := PacketValue.float 3,
           Modifier := "x", Sampling := 1 }] ∧
    parseMessage ("a:3|x".data) ≠ [] := by
  have h : parseMessage ("a:3|x".data)
      = [{ Bucket := "stats.a", Value := PacketValue.float 3,
           Modifier := "x", Sampling := 1 }] := by rfl
  refine ⟨h, ?_⟩
  rw [h]
  simp

/-- C6 (amended): a type indicator `m` not followed by `s` rejects the
line; but an unknown single character other than `c`, `g`, `s`, `m` does
not reject it — the value is parsed as a float and an event with that
modifier is produced (the aggregator ignores it); parsing always
continues with the remaining lines. -/
theorem parse_type_indicator_behavior :
    (∀ (name val : List Char) (ch : Char) (q : Rat),
      ':' ∉ name → '\n' ∉ name → '|' ∉ val → '\n' ∉ val →
      ch ≠ 'c' → ch ≠ 'g' → ch ≠ 's' → ch ≠ 'm' → ch ≠ '\n' →
      parseFloat val = some q →
      parseMessage (name ++ ':' :: (val ++ '|' :: [ch]))
        = [{ Bucket := pfxStats ++ String.mk name, Value := PacketValue.float q,
             Modifier := String.mk [ch], Sampling := 1 }]) ∧
    (∀ (name val : List Char) (ch2 : Char),
      ':' ∉ name → '\n' ∉ name → '|' ∉ val → '\n' ∉ val → ch2 ≠ 's' → ch2 ≠ '\n' →
      parseMessage (name ++ ':' :: (val ++ '|' :: 'm' :: [ch2])) = []) ∧
    (∀ (l rest : List Char), '\n' ∉ l →
      parseMessage (l ++ '\n' :: rest) = parseMessage l ++ parseMessage rest) := by
  refine ⟨?_, ?_, ?_⟩
  · intro name val ch q hname hnl1 hval hnl2 hc hg hs hm hnl3 hq
    have hnl : '\n' ∉ name ++ ':' :: (val ++ '|' :: [ch]) := by
      intro hmem
      simp only [List.mem_append, List.mem_cons, List.not_mem_nil, or_false] at hmem
      rcases hmem with h | h | h | h | h
      · exact hnl1 h
      · exact absurd h (by decide)
      · exact hnl2 h
      · exact absurd h (by decide)
      · exact hnl3 h.symm
    have hne : name ++ ':' :: (val ++ '|' :: [ch]) ≠ [] := by
      cases name <;> simp
    rw [parseMessage, splitOnNl_no_nl _ hnl]
    rw [List.filterMap_cons]
    rw [if_neg hne, parseLine_unknown_char name val ch q hname hval hc hg hs hm hq]
    rfl
  · intro name val ch2 hname hnl1 hval hnl2 hs hnl3
    have hnl : '\n' ∉ name ++ ':' :: (val ++ '|' :: 'm' :: [ch2]) := by
      intro hmem
      simp only [List.mem_append, List.mem_cons, List.not_mem_nil, or_false] at hmem
      rcases hmem with h | h | h | h | h | h
      · exact hnl1 h
      · exact absurd h (by decide)
      · exact hnl2 h
      · exact absurd h (by decide)
      · exact absurd h (by decide)
      · exact hnl3 h.symm
    have hne : name ++ ':' :: (val ++ '|' :: 'm' :: [ch2]) ≠ [] := by
      cases name <;> simp
    rw [parseMessage, splitOnNl_no_nl _ hnl]
    rw [List.filterMap_cons]
    rw [if_neg hne, parseLine_m_not_s name val ch2 hname hval hs]
    rfl
  · intro l rest hnl
    rw [parseMessage, splitOnNl_append l rest hnl]
    rw [List.filterMap_cons]
    by_cases hl : l = []
    · subst hl
      simp [parseMessage, splitOnNl]
    · rw [if_neg hl]
      cases hpl : parseLine l with
      | none =>
        rw [parseMessage, splitOnNl_no_nl l hnl, List.filterMap_cons, if_neg hl, hpl]
        rfl
      | some pkt =>
        rw [parseMessage, splitOnNl_no_nl l hnl, List.filterMap_cons, if_neg hl, hpl]
        rfl

/-- Witness for C6's amended theorem: `a:3|x` is accepted with modifier
`x`, `a:3|mz` is rejected, and a two-line payload parses both lines. -/
theorem parse_type_indicator_behavior_witness :
    parseMessage (['a'] ++ ':' :: (['3'] ++ '|' :: ['x']))
      = [{ Bucket := pfxStats ++ String.mk ['a'], Value := PacketValue.float 3,
           Modifier := String.mk ['x'], Sampling := 1 }] ∧
    parseMessage (['a'] ++ ':' :: (['3'] ++ '|' :: 'm' :: ['z'])) = [] ∧
    parseMessage (['a', ':', '3', '|', 'x'] ++ '\n' :: ['b', ':', '4', '|', 'x'])
      = parseMessage ['a', ':', '3', '|', 'x'] ++ parseMessage ['b', ':', '4', '|', 'x'] :=
  ⟨parse_type_indicator_behavior.1 ['a'] ['3'] 'x' 3
      (by decide) (by decide) (by decide) (by decide)
      (by decide) (by decide) (by decide) (by decide) (by decide) (by rfl),
   parse_type_indicator_behavior.2.1 ['a'] ['3'] 'z'
      (by decide) (by decide) (by decide) (by decide) (by decide) (by decide),
   parse_type_indicator_behavior.2.2 ['a', ':', '3', '|', 'x'] ['b', ':', '4', '|', 'x']
      (by decide)⟩

end Statsd
